import Mathlib

/-!
Verification of the schema-retrieval core of the qsight_streamlit data
migration assistant. Definitions are shallow embeddings of the Python
source (src/main.py, src/scripts/vector_storage.py,
src/scripts/sql_script_generator2.py); components whose implementation
lives in external libraries (the langchain Chroma MMR retriever) are
modelled from the design document and marked as such.
-/

/-- A table schema as loaded from the JSON catalogs: a table name, an
ordered sequence of columns (each a column name followed by further
attributes that the core ignores), declared foreign keys (table names,
absent key modelled as the empty list, matching the Python
`target_schema.get("foreign_keys", [])` default), and the optional
`file_name` selection key carried by target catalog entries. -/
structure TableSchema where
  table_name : String
  columns : List (String × List String)
  foreign_keys : List String
  file_name : Option String
deriving DecidableEq, Repr

/-- The ordered column-name sequence of a schema: the first element of
each column tuple, mirroring `[column[0] for column in table["columns"]]`. -/
def columnNames (t : TableSchema) : List String :=
  t.columns.map Prod.fst

/-- A Python single-quoted string literal, as produced by `str` on a
dict holding strings. -/
def pyStrLit (s : String) : String :=
  "\x27" ++ s ++ "\x27"

/-- The Schema Document Encoder: the textual form of
`{table["table_name"]: [column[0] for column in table["columns"]]}`
under the Python `str` serialization of a single-key dict, as built by
the vector storage setup (main.py lines 81-85) for index documents
and in `get_legacy_and_dependent_tables` (main.py lines 50-52) for the
query text. -/
def encodeDoc (t : TableSchema) : String :=
  "\x7b" ++ pyStrLit t.table_name ++ ": [" ++
    String.intercalate ", " ((columnNames t).map pyStrLit) ++ "]\x7d"

/-- The Candidate Resolver, `get_legacy_and_dependent_tables`
(main.py lines 39-71). `retrieve` abstracts the external vector-store
retriever: given the query text it returns the parsed page contents of
the retrieved documents, each a single-key dict rendered as its key
(the table name) paired with its column list. The rest is a line-by-line
embedding: dependent tables filter the target catalog by membership of
`table_name` in the foreign keys; legacy matches map each retrieved
table name that has some exact match in the legacy catalog to the first
such match (`next(...)` guarded by `any(...)`). -/
def get_legacy_and_dependent_tables (target_schema : TableSchema)
    (target_tables legacy_tables : List TableSchema)
    (retrieve : String → List (String × List String)) :
    List TableSchema × List TableSchema :=
  let foreign_keys := target_schema.foreign_keys
  let dependent_tables :=
    target_tables.filter (fun table => foreign_keys.contains table.table_name)
  let target_schema_query := encodeDoc target_schema
  let retrieved_data := retrieve target_schema_query
  let table_names := retrieved_data.map (fun item => item.1)
  let retrieved_tables := table_names.filterMap (fun table_name =>
    if legacy_tables.any (fun table => table.table_name == table_name) then
      legacy_tables.find? (fun table => table.table_name == table_name)
    else
      none)
  (retrieved_tables, dependent_tables)

/-- The request object handed to the external generation collaborator:
the keyword arguments of `SQLScriptGenerator.get_sql_query`
(sql_script_generator2.py lines 395-420). -/
structure GenRequest where
  legacy_tables : List TableSchema
  target_schema : TableSchema
  dependent_tables : List TableSchema
deriving DecidableEq, Repr

/-- The Generation Request Builder: the call site in the main
application logic (main.py lines 154-174). After computing
`retrieved_tables, dependent_tables = get_legacy_and_dependent_tables(...)`
the source invokes
`sql_writer.get_sql_query(legacy_tables=legacy_tables,
target_schema=target_schema, dependent_tables=dependent_tables)`, where
`legacy_tables` is the full catalog variable loaded from
Legacy_tables.json, not the first component of the resolver result. -/
def buildGenRequest (target_schema : TableSchema)
    (target_tables legacy_tables : List TableSchema)
    (retrieve : String → List (String × List String)) : GenRequest :=
  let resolved := get_legacy_and_dependent_tables target_schema target_tables
    legacy_tables retrieve
  { legacy_tables := legacy_tables
    target_schema := target_schema
    dependent_tables := resolved.2 }

/-- `get_target_schema_by_filename` (main.py lines 104-108): scan the
target catalog in order and return the first table whose `file_name`
field equals the given filename; `table.get("file_name")` yields the
missing-field marker `None` when the key is absent, which never equals
a string filename, so a table without the field is skipped. -/
def get_target_schema_by_filename (target_tables : List TableSchema)
    (filename : String) : Option TableSchema :=
  match target_tables with
  | [] => none
  | table :: rest =>
    if table.file_name == some filename then some table
    else get_target_schema_by_filename rest filename

namespace VertexAIEmbeddingFunction

/-- The fixed batch size of `VertexAIEmbeddingFunction.__call__`
(vector_storage.py line 56): `batch_size = 100`. -/
def batch_size : Nat := 100

/-- The successive slices `docs[i : i + batch_size]` visited by the
loop `for i in range(0, len(docs), batch_size)` in
`VertexAIEmbeddingFunction.__call__` (vector_storage.py lines 60-70). -/
def callBatches (docs : List String) : List (List String) :=
  if h : docs = [] then []
  else docs.take batch_size :: callBatches (docs.drop batch_size)
termination_by docs.length
decreasing_by
  simp only [List.length_drop]
  have : 0 < docs.length := List.length_pos.mpr h
  simp [batch_size]
  omega

/-- `VertexAIEmbeddingFunction.__call__` (vector_storage.py lines
45-77). `provide` abstracts one remote
`self.embedding_model.get_embeddings(inputs)` call on a single batch;
an exception from the provider is an `Except.error`, re-raised by the
`except` clause so that the whole call fails. On success the loop
extends `all_embeddings` with each batch result in order. -/
def call {ε α : Type} (provide : List String → Except ε (List α))
    (docs : List String) : Except ε (List α) :=
  if h : docs = [] then .ok []
  else
    match provide (docs.take batch_size) with
    | .error e => .error e
    | .ok batch_embeddings =>
      match call provide (docs.drop batch_size) with
      | .error e => .error e
      | .ok rest => .ok (batch_embeddings ++ rest)
termination_by docs.length
decreasing_by
  simp only [List.length_drop]
  have : 0 < docs.length := List.length_pos.mpr h
  simp [batch_size]
  omega

/-- Running the provider over an explicit batch list, accumulating in
order and failing on the first failing batch: the reference shape used
to relate `call` to `callBatches`. -/
def runBatches {ε α : Type} (provide : List String → Except ε (List α)) :
    List (List String) → Except ε (List α)
  | [] => .ok []
  | b :: bs =>
    match provide b with
    | .error e => .error e
    | .ok embs =>
      match runBatches provide bs with
      | .error e => .error e
      | .ok rest => .ok (embs ++ rest)

end VertexAIEmbeddingFunction

/-- Modelled from the spec: an entry of the Similarity Index (design
document section 3, IndexEntry) — id, stored document text, embedding
vector, and the `table` metadata field. The index itself is the
external Chroma collection, absent from src/, so its entries are
modelled from the design document. -/
structure IndexEntry where
  id : String
  document : String
  embedding : List Rat
  table : String
deriving DecidableEq, Repr

/-- First element attaining the maximal value of `f`, later elements
replacing the incumbent only on a strictly greater value, so ties keep
the earlier (better original-rank) candidate. -/
def argmaxBy {α : Type} (f : α → Rat) : List α → Option α
  | [] => none
  | a :: rest =>
    match argmaxBy f rest with
    | none => some a
    | some b => if f b > f a then some b else some a

/-- Modelled from the spec: greatest pairwise similarity of a candidate
to the already selected entries, zero when nothing is selected yet
(design document section 4.3, MMR re-ranking). -/
def maxSimTo (simP : IndexEntry → IndexEntry → Rat)
    (selected : List IndexEntry) (c : IndexEntry) : Rat :=
  (selected.map (simP c)).foldr max 0

/-- Modelled from the spec: maximal-marginal-relevance selection
(design document section 4.3) — at each step pick the candidate
maximizing lam * similarity_to_query - (1 - lam) * max similarity to
the already selected, ties broken stably, until k entries are chosen or
the candidates run out. -/
def mmrSelect (lam : Rat) (simQ : IndexEntry → Rat)
    (simP : IndexEntry → IndexEntry → Rat)
    (selected : List IndexEntry) (candidates : List IndexEntry) :
    Nat → List IndexEntry
  | 0 => []
  | k + 1 =>
    match argmaxBy
        (fun c => lam * simQ c - (1 - lam) * maxSimTo simP selected c)
        candidates with
    | none => []
    | some best =>
      best :: mmrSelect lam simQ simP (best :: selected)
        (candidates.erase best) k

/-- Modelled from the spec: the first retrieval stage (design document
section 4.3) — the fetch_k entries nearest to the query by similarity,
sorted by descending query similarity with a stable sort. -/
def topFetch (simQ : IndexEntry → Rat) (entries : List IndexEntry)
    (fetch_k : Nat) : List IndexEntry :=
  (entries.mergeSort (fun a b => decide (simQ b ≤ simQ a))).take fetch_k

/-- Modelled from the spec: the error raised on caller misuse of
`search` (design document sections 4.3 and 7, InvalidQueryError). -/
inductive SearchError
  | invalidQuery
deriving DecidableEq, Repr

/-- Modelled from the spec: `search(query_text, k, fetch_k)` of the
Similarity Index (design document section 4.3), whose concrete
implementation is the external langchain Chroma MMR retriever invoked
in `get_legacy_and_dependent_tables` (main.py lines 54-60) and is not
part of src/. `simQ` is the cosine similarity of an entry to the
embedded query text, `simP` the pairwise entry similarity. fetch_k
must be at least k, otherwise the call fails with InvalidQueryError;
otherwise the fetch_k nearest entries are re-ranked by MMR and the
first k returned. -/
def search (lam : Rat) (simQ : IndexEntry → Rat)
    (simP : IndexEntry → IndexEntry → Rat) (entries : List IndexEntry)
    (k fetch_k : Nat) : Except SearchError (List IndexEntry) :=
  if fetch_k < k then .error .invalidQuery
  else .ok (mmrSelect lam simQ simP [] (topFetch simQ entries fetch_k) k)

namespace VertexAIEmbeddingFunction

theorem callBatches_nil : callBatches [] = [] := by
  rw [callBatches]
  simp

theorem callBatches_cons (docs : List String) (h : docs ≠ []) :
    callBatches docs =
      docs.take batch_size :: callBatches (docs.drop batch_size) := by
  rw [callBatches]
  simp [h]

theorem call_nil {ε α : Type} (provide : List String → Except ε (List α)) :
    call provide [] = .ok [] := by
  rw [call]
  simp

theorem call_cons {ε α : Type} (provide : List String → Except ε (List α))
    (docs : List String) (h : docs ≠ []) :
    call provide docs =
      match provide (docs.take batch_size) with
      | .error e => .error e
      | .ok batch_embeddings =>
        match call provide (docs.drop batch_size) with
        | .error e => .error e
        | .ok rest => .ok (batch_embeddings ++ rest) := by
  rw [call]
  simp [h]

theorem call_eq_runBatches_aux {ε α : Type}
    (provide : List String → Except ε (List α)) (n : Nat) :
    ∀ docs : List String, docs.length ≤ n →
      call provide docs = runBatches provide (callBatches docs) := by
  induction n with
  | zero =>
    intro docs hlen
    have hnil : docs = [] := List.length_eq_zero.mp (Nat.le_zero.mp hlen)
    subst hnil
    rw [call_nil, callBatches_nil]
    rfl
  | succ n ih =>
    intro docs hlen
    by_cases hnil : docs = []
    · subst hnil
      rw [call_nil, callBatches_nil]
      rfl
    · have hpos : 0 < docs.length := List.length_pos.mpr hnil
      have hdrop : (docs.drop batch_size).length ≤ n := by
        simp only [List.length_drop]
        simp only [batch_size]
        omega
      rw [call_cons provide docs hnil, callBatches_cons docs hnil,
        ih (docs.drop batch_size) hdrop]
      rfl

/-- `call` consumes exactly the slices listed by `callBatches`, in
order. -/
theorem call_eq_runBatches {ε α : Type}
    (provide : List String → Except ε (List α)) (docs : List String) :
    call provide docs = runBatches provide (callBatches docs) :=
  call_eq_runBatches_aux provide docs.length docs (Nat.le_refl _)

theorem callBatches_size_aux (n : Nat) :
    ∀ docs : List String, docs.length ≤ n →
      ∀ b ∈ callBatches docs, b.length ≤ batch_size := by
  induction n with
  | zero =>
    intro docs hlen b hb
    have hnil : docs = [] := List.length_eq_zero.mp (Nat.le_zero.mp hlen)
    subst hnil
    rw [callBatches_nil] at hb
    exact absurd hb (List.not_mem_nil b)
  | succ n ih =>
    intro docs hlen b hb
    by_cases hnil : docs = []
    · subst hnil
      rw [callBatches_nil] at hb
      exact absurd hb (List.not_mem_nil b)
    · rw [callBatches_cons docs hnil] at hb
      rcases List.mem_cons.mp hb with hb | hb
      · subst hb
        exact List.length_take_le batch_size docs
      · have hpos : 0 < docs.length := List.length_pos.mpr hnil
        have hdrop : (docs.drop batch_size).length ≤ n := by
          simp only [List.length_drop]
          simp only [batch_size]
          omega
        exact ih (docs.drop batch_size) hdrop b hb

/-- Every internal batch has at most `batch_size` texts. -/
theorem callBatches_size (docs : List String) :
    ∀ b ∈ callBatches docs, b.length ≤ batch_size :=
  callBatches_size_aux docs.length docs (Nat.le_refl _)

theorem callBatches_join_aux (n : Nat) :
    ∀ docs : List String, docs.length ≤ n → (callBatches docs).flatten = docs := by
  induction n with
  | zero =>
    intro docs hlen
    have hnil : docs = [] := List.length_eq_zero.mp (Nat.le_zero.mp hlen)
    subst hnil
    rw [callBatches_nil]
    rfl
  | succ n ih =>
    intro docs hlen
    by_cases hnil : docs = []
    · subst hnil
      rw [callBatches_nil]
      rfl
    · have hpos : 0 < docs.length := List.length_pos.mpr hnil
      have hdrop : (docs.drop batch_size).length ≤ n := by
        simp only [List.length_drop]
        simp only [batch_size]
        omega
      rw [callBatches_cons docs hnil]
      simp only [List.flatten_cons, ih (docs.drop batch_size) hdrop]
      exact List.take_append_drop batch_size docs

/-- The internal batches partition the input: concatenating them in
order restores the input sequence. -/
theorem callBatches_join (docs : List String) :
    (callBatches docs).flatten = docs :=
  callBatches_join_aux docs.length docs (Nat.le_refl _)

/-- When the provider maps each batch elementwise by `f`, running the
batches yields the elementwise map of the concatenated input. -/
theorem runBatches_map {ε α : Type} (f : String → α)
    (provide : List String → Except ε (List α))
    (h : ∀ b, provide b = .ok (b.map f)) :
    ∀ bs : List (List String),
      runBatches provide bs = .ok (bs.flatten.map f) := by
  intro bs
  induction bs with
  | nil => rfl
  | cons b rest ih =>
    simp only [runBatches, h b, ih, List.flatten_cons, List.map_append]

/-- If some batch fails, running the batches fails. -/
theorem runBatches_error {ε α : Type}
    (provide : List String → Except ε (List α)) :
    ∀ bs : List (List String),
      (∃ b ∈ bs, ∃ e, provide b = .error e) →
      ∃ e, runBatches provide bs = .error e := by
  intro bs hfail
  induction bs with
  | nil =>
    obtain ⟨b, hb, _⟩ := hfail
    exact absurd hb (List.not_mem_nil b)
  | cons b rest ih =>
    obtain ⟨b0, hb0, e0, he0⟩ := hfail
    rcases List.mem_cons.mp hb0 with hb | hb
    · subst hb
      exact ⟨e0, by simp only [runBatches, he0]⟩
    · cases hpb : provide b with
      | error e => exact ⟨e, by simp only [runBatches, hpb]⟩
      | ok embs =>
        obtain ⟨e, he⟩ := ih ⟨b0, hb, e0, he0⟩
        exact ⟨e, by simp only [runBatches, hpb, he]⟩

end VertexAIEmbeddingFunction

theorem argmaxBy_eq_none {α : Type} (f : α → Rat) (l : List α) :
    argmaxBy f l = none ↔ l = [] := by
  cases l with
  | nil => simp [argmaxBy]
  | cons a rest =>
    simp only [argmaxBy]
    cases argmaxBy f rest with
    | none => simp
    | some b =>
      by_cases hlt : f b > f a <;> simp [hlt]

theorem argmaxBy_mem {α : Type} (f : α → Rat) (l : List α) (a : α)
    (h : argmaxBy f l = some a) : a ∈ l := by
  induction l with
  | nil => simp [argmaxBy] at h
  | cons x rest ih =>
    simp only [argmaxBy] at h
    cases hrest : argmaxBy f rest with
    | none =>
      rw [hrest] at h
      simp only [Option.some.injEq] at h
      subst h
      exact List.mem_cons_self x rest
    | some b =>
      rw [hrest] at h
      by_cases hlt : f b > f x
      · simp only [hlt, if_pos] at h
        simp only [Option.some.injEq] at h
        subst h
        exact List.mem_cons_of_mem x (ih hrest)
      · simp only [hlt, if_neg, if_false] at h
        simp only [Option.some.injEq] at h
        subst h
        exact List.mem_cons_self x rest

theorem mmrSelect_length (lam : Rat) (simQ : IndexEntry → Rat)
    (simP : IndexEntry → IndexEntry → Rat) (k : Nat) :
    ∀ selected candidates,
      (mmrSelect lam simQ simP selected candidates k).length =
        min k candidates.length := by
  induction k with
  | zero => intro selected candidates; simp [mmrSelect]
  | succ k ih =>
    intro selected candidates
    simp only [mmrSelect]
    cases hmax : argmaxBy
        (fun c => lam * simQ c - (1 - lam) * maxSimTo simP selected c)
        candidates with
    | none =>
      have : candidates = [] := (argmaxBy_eq_none _ _).mp hmax
      subst this
      simp
    | some best =>
      have hmem : best ∈ candidates := argmaxBy_mem _ _ _ hmax
      have herase : (candidates.erase best).length = candidates.length - 1 :=
        List.length_erase_of_mem hmem
      have hpos : 0 < candidates.length := List.length_pos.mpr
        (List.ne_nil_of_mem hmem)
      simp only [List.length_cons, ih]
      rw [herase]
      omega

theorem topFetch_length (simQ : IndexEntry → Rat) (entries : List IndexEntry)
    (fetch_k : Nat) :
    (topFetch simQ entries fetch_k).length = min fetch_k entries.length := by
  simp only [topFetch, List.length_take, List.length_mergeSort]

theorem search_ok_length (lam : Rat) (simQ : IndexEntry → Rat)
    (simP : IndexEntry → IndexEntry → Rat) (entries : List IndexEntry)
    (k fetch_k : Nat) (h : k ≤ fetch_k) :
    search lam simQ simP entries k fetch_k =
      .ok (mmrSelect lam simQ simP [] (topFetch simQ entries fetch_k) k) ∧
    (mmrSelect lam simQ simP [] (topFetch simQ entries fetch_k) k).length =
      min k (min fetch_k entries.length) := by
  constructor
  · simp only [search, if_neg (Nat.not_lt.mpr h)]
  · rw [mmrSelect_length, topFetch_length]

/-- The legacy-match lookup applied to one retrieved table name:
the guarded first-match of the comprehension
`next(table for table in legacy_tables if ...) ... if any(...)`. -/
def legacyLookup (legacy_tables : List TableSchema) (table_name : String) :
    Option TableSchema :=
  if legacy_tables.any (fun table => table.table_name == table_name) then
    legacy_tables.find? (fun table => table.table_name == table_name)
  else
    none

theorem resolver_fst (target_schema : TableSchema)
    (target_tables legacy_tables : List TableSchema)
    (retrieve : String → List (String × List String)) :
    (get_legacy_and_dependent_tables target_schema target_tables legacy_tables
        retrieve).1 =
      ((retrieve (encodeDoc target_schema)).map Prod.fst).filterMap
        (legacyLookup legacy_tables) := rfl

theorem resolver_snd (target_schema : TableSchema)
    (target_tables legacy_tables : List TableSchema)
    (retrieve : String → List (String × List String)) :
    (get_legacy_and_dependent_tables target_schema target_tables legacy_tables
        retrieve).2 =
      target_tables.filter
        (fun table => target_schema.foreign_keys.contains table.table_name) := rfl

theorem legacyLookup_isSome (legacy_tables : List TableSchema) (n : String) :
    ∀ t, legacyLookup legacy_tables n = some t → t.table_name = n := by
  intro t h
  simp only [legacyLookup] at h
  by_cases hany : legacy_tables.any (fun table => table.table_name == n)
  · rw [if_pos hany] at h
    have := List.find?_some h
    exact eq_of_beq this
  · rw [if_neg hany] at h
    exact absurd h (by simp)

theorem legacyLookup_none_of_hasMatch_false (legacy_tables : List TableSchema)
    (n : String)
    (h : legacy_tables.any (fun table => table.table_name == n) = false) :
    legacyLookup legacy_tables n = none := by
  simp only [legacyLookup, h]
  simp

theorem legacyLookup_isSome_of_hasMatch (legacy_tables : List TableSchema)
    (n : String)
    (h : legacy_tables.any (fun table => table.table_name == n) = true) :
    (legacyLookup legacy_tables n).isSome := by
  simp only [legacyLookup, h, if_true]
  rw [List.find?_isSome]
  obtain ⟨t, ht, hp⟩ := List.any_eq_true.mp h
  exact ⟨t, ht, hp⟩

/-- The names of the resolved legacy matches are exactly the retrieved
names filtered to those with an exact catalog match, in retrieval rank
order, multiplicity included. -/
theorem filterMap_legacyLookup_names (legacy_tables : List TableSchema) :
    ∀ names : List String,
      (names.filterMap (legacyLookup legacy_tables)).map
          (fun t => t.table_name) =
        names.filter
          (fun n => legacy_tables.any (fun table => table.table_name == n)) := by
  intro names
  induction names with
  | nil => rfl
  | cons n rest ih =>
    by_cases hany : legacy_tables.any (fun table => table.table_name == n) = true
    · obtain ⟨t, ht⟩ := Option.isSome_iff_exists.mp
        (legacyLookup_isSome_of_hasMatch legacy_tables n hany)
      simp only [List.filterMap_cons, ht, List.map_cons, ih,
        List.filter_cons, hany, if_true]
      rw [legacyLookup_isSome legacy_tables n t ht]
    · have hnone : legacyLookup legacy_tables n = none :=
        legacyLookup_none_of_hasMatch_false legacy_tables n
          (Bool.not_eq_true _ ▸ eq_false_of_ne_true hany)
      simp only [List.filterMap_cons, hnone, ih, List.filter_cons]
      rw [if_neg (by simpa using hany)]

/-- Sample legacy table `orders` from the design document end-to-end
scenario. -/
def tblOrders : TableSchema :=
  ⟨"orders", [("id", []), ("cust_id", []), ("total", [])], [], none⟩

/-- Sample legacy table `customers` from the design document end-to-end
scenario. -/
def tblCustomers : TableSchema :=
  ⟨"customers", [("id", []), ("name", [])], [], none⟩

/-- Sample target table `Customer` from the design document end-to-end
scenario. -/
def tblCustomer : TableSchema :=
  ⟨"Customer", [("Id", []), ("Name", [])], [], some "Target.Customer.sql"⟩

/-- Sample target table `Order` from the design document end-to-end
scenario, declaring a foreign key on `Customer` and one on a table
missing from the target catalog. -/
def tblOrder : TableSchema :=
  ⟨"Order", [("OrderId", []), ("CustomerId", [])], ["Customer", "Missing"],
    some "Target.Order.sql"⟩

/-- C1: the claim states that the legacy_tables field of the built
generation request equals the legacy_matches sequence produced by the
Candidate Resolver. Counterexample: with legacy catalog
[orders, customers] and a retriever returning nothing, legacy_matches
is empty while the request field holds the whole catalog — the call
site passes the full catalog variable, not the resolver output. -/
theorem c1_counterexample :
    (buildGenRequest tblOrder [tblCustomer] [tblOrders, tblCustomers]
        (fun _ => [])).legacy_tables ≠
      (get_legacy_and_dependent_tables tblOrder [tblCustomer]
        [tblOrders, tblCustomers] (fun _ => [])).1 := by
  decide

/-- C1 (amended): the built request packages the full legacy catalog in
its legacy_tables field — not the resolver legacy_matches — together
with the target schema and the resolver dependent targets. -/
theorem c1_request_packages_full_catalog (target_schema : TableSchema)
    (target_tables legacy_tables : List TableSchema)
    (retrieve : String → List (String × List String)) :
    (buildGenRequest target_schema target_tables legacy_tables
        retrieve).legacy_tables = legacy_tables ∧
    (buildGenRequest target_schema target_tables legacy_tables
        retrieve).target_schema = target_schema ∧
    (buildGenRequest target_schema target_tables legacy_tables
        retrieve).dependent_tables =
      (get_legacy_and_dependent_tables target_schema target_tables
        legacy_tables retrieve).2 :=
  ⟨rfl, rfl, rfl⟩

/-- C2: the claim states that a table name occurring twice in the ranked
names collapses to a single entry of legacy_matches. Counterexample:
with the index returning the name `orders` twice, legacy_matches holds
the `orders` schema twice — the comprehension performs no
deduplication. -/
theorem c2_counterexample :
    (get_legacy_and_dependent_tables tblOrder [] [tblOrders]
        (fun _ => [("orders", []), ("orders", [])])).1 =
      [tblOrders, tblOrders] ∧
    (get_legacy_and_dependent_tables tblOrder [] [tblOrders]
        (fun _ => [("orders", []), ("orders", [])])).1 ≠ [tblOrders] := by
  constructor <;> decide

/-- C2 (amended): legacy_matches preserves retrieval rank order and
multiplicity: its table-name sequence equals the ranked names filtered
to those with an exact catalog match, so a duplicated name contributes
one entry per occurrence (each resolving to the first exact catalog
match, a member of the catalog), and it is not collapsed to the first
occurrence. -/
theorem c2_rank_order_and_multiplicity (target_schema : TableSchema)
    (target_tables legacy_tables : List TableSchema)
    (retrieve : String → List (String × List String)) :
    ((get_legacy_and_dependent_tables target_schema target_tables
          legacy_tables retrieve).1).map (fun t => t.table_name) =
      ((retrieve (encodeDoc target_schema)).map Prod.fst).filter
        (fun n => legacy_tables.any (fun table => table.table_name == n)) ∧
    ∀ t ∈ (get_legacy_and_dependent_tables target_schema target_tables
        legacy_tables retrieve).1, t ∈ legacy_tables := by
  constructor
  · rw [resolver_fst]
    exact filterMap_legacyLookup_names legacy_tables _
  · intro t ht
    rw [resolver_fst] at ht
    obtain ⟨n, _, hn⟩ := List.mem_filterMap.mp ht
    simp only [legacyLookup] at hn
    by_cases hany : legacy_tables.any (fun table => table.table_name == n)
    · rw [if_pos hany] at hn
      exact List.mem_of_find?_eq_some hn
    · rw [if_neg hany] at hn
      exact absurd hn (by simp)

/-- C6: the Schema Document Encoder is deterministic — two schemas with
the same table name and the same ordered column-name sequence encode to
byte-identical text, and encoding the same schema twice yields
identical text. -/
theorem c6_encoder_deterministic (s1 s2 : TableSchema)
    (h1 : s1.table_name = s2.table_name)
    (h2 : columnNames s1 = columnNames s2) :
    encodeDoc s1 = encodeDoc s2 ∧ encodeDoc s1 = encodeDoc s1 := by
  refine ⟨?_, rfl⟩
  simp only [encodeDoc, h1, h2]

/-- C6 witness: two schemas differing in column attributes, foreign
keys and file name but agreeing on name and column names encode
identically. -/
theorem c6_encoder_deterministic_witness :
    (TableSchema.mk "t" [("a", ["int"])] ["x"] none).table_name =
      (TableSchema.mk "t" [("a", ["text"])] [] (some "f.sql")).table_name ∧
    columnNames (TableSchema.mk "t" [("a", ["int"])] ["x"] none) =
      columnNames (TableSchema.mk "t" [("a", ["text"])] [] (some "f.sql")) ∧
    encodeDoc (TableSchema.mk "t" [("a", ["int"])] ["x"] none) =
      encodeDoc (TableSchema.mk "t" [("a", ["text"])] [] (some "f.sql")) :=
  ⟨by decide, by decide,
    (c6_encoder_deterministic _ _ (by decide) (by decide)).1⟩

/-- C7: dependent_targets is exactly the target catalog filtered, in
catalog iteration order, to tables whose name appears in the target
schema foreign keys; it is a subsequence of the catalog, every entry is
declared as a foreign key, and adding a declared-but-missing name to
the foreign keys leaves the result unchanged — the missing dependency
is silently omitted, no error is possible. -/
theorem c7_dependent_targets (target_schema : TableSchema)
    (target_tables legacy_tables : List TableSchema)
    (retrieve : String → List (String × List String)) (n : String)
    (hn : n ∉ target_tables.map (fun t => t.table_name)) :
    (get_legacy_and_dependent_tables target_schema target_tables
        legacy_tables retrieve).2 =
      target_tables.filter
        (fun t => target_schema.foreign_keys.contains t.table_name) ∧
    ((get_legacy_and_dependent_tables target_schema target_tables
        legacy_tables retrieve).2).Sublist target_tables ∧
    (∀ t ∈ (get_legacy_and_dependent_tables target_schema target_tables
        legacy_tables retrieve).2, t.table_name ∈ target_schema.foreign_keys) ∧
    (∀ t ∈ target_tables, t.table_name ∈ target_schema.foreign_keys →
      t ∈ (get_legacy_and_dependent_tables target_schema target_tables
        legacy_tables retrieve).2) ∧
    (get_legacy_and_dependent_tables
        { target_schema with
            foreign_keys := target_schema.foreign_keys ++ [n] }
        target_tables legacy_tables retrieve).2 =
      (get_legacy_and_dependent_tables target_schema target_tables
        legacy_tables retrieve).2 := by
  refine ⟨resolver_snd _ _ _ _, ?_, ?_, ?_, ?_⟩
  · rw [resolver_snd]
    exact List.filter_sublist target_tables
  · intro t ht
    rw [resolver_snd] at ht
    have hp := List.of_mem_filter ht
    simpa [List.contains] using hp
  · intro t ht hfk
    rw [resolver_snd]
    refine List.mem_filter.mpr ⟨ht, ?_⟩
    simpa [List.contains] using hfk
  · rw [resolver_snd, resolver_snd]
    refine List.filter_congr ?_
    intro t ht
    have hne : t.table_name ≠ n := by
      intro heq
      exact hn (heq ▸ List.mem_map_of_mem (fun t => t.table_name) ht)
    simp [List.contains, hne]

/-- C7 witness: target table Order declares foreign keys Customer and
Missing; with catalog [Customer], the dependent targets are exactly
[Customer] and the Missing declaration changes nothing. -/
theorem c7_dependent_targets_witness :
    "Missing" ∉ [tblCustomer].map (fun t => t.table_name) ∧
    (get_legacy_and_dependent_tables tblOrder [tblCustomer]
        [tblOrders, tblCustomers] (fun _ => [])).2 = [tblCustomer] := by
  refine ⟨by decide, ?_⟩
  have h := (c7_dependent_targets tblOrder [tblCustomer]
    [tblOrders, tblCustomers] (fun _ => []) "Missing" (by decide)).1
  rw [h]
  decide

/-- C8: a retrieved table name with no exact match in the legacy
catalog is dropped from legacy_matches without error — prepending such
a name to the retrieval result leaves legacy_matches unchanged — and
resolving against an empty legacy catalog yields an empty
legacy_matches for every retrieval result, even a non-empty one. -/
theorem c8_unmatched_names_dropped (target_schema : TableSchema)
    (target_tables legacy_tables : List TableSchema)
    (retrieve : String → List (String × List String)) (n : String)
    (cols : List String) (h : ∀ t ∈ legacy_tables, t.table_name ≠ n) :
    (∀ (ts2 : TableSchema) (tc2 : List TableSchema)
        (retrieve2 : String → List (String × List String)),
      (get_legacy_and_dependent_tables ts2 tc2 [] retrieve2).1 = []) ∧
    (get_legacy_and_dependent_tables target_schema target_tables
        legacy_tables (fun q => (n, cols) :: retrieve q)).1 =
      (get_legacy_and_dependent_tables target_schema target_tables
        legacy_tables retrieve).1 := by
  constructor
  · intro ts2 tc2 retrieve2
    rw [resolver_fst]
    have hnone : ∀ m : String, legacyLookup [] m = none := by
      intro m
      simp [legacyLookup]
    induction ((retrieve2 (encodeDoc ts2)).map Prod.fst) with
    | nil => rfl
    | cons m rest ih => simp only [List.filterMap_cons, hnone m, ih]
  · rw [resolver_fst, resolver_fst]
    simp only [List.map_cons, List.filterMap_cons]
    have hany : legacy_tables.any (fun table => table.table_name == n) = false := by
      rw [List.any_eq_false]
      intro t ht
      simpa using h t ht
    rw [legacyLookup_none_of_hasMatch_false legacy_tables n hany]

/-- C8 witness: with legacy catalog [orders], the stale name `ghost`
contributes nothing and the empty-catalog resolution is empty. -/
theorem c8_unmatched_names_dropped_witness :
    (∀ t ∈ [tblOrders], t.table_name ≠ "ghost") ∧
    (get_legacy_and_dependent_tables tblOrder [] [tblOrders]
        (fun q => ("ghost", []) :: (fun _ => [("orders", [])]) q)).1 =
      (get_legacy_and_dependent_tables tblOrder [] [tblOrders]
        (fun _ => [("orders", [])])).1 := by
  refine ⟨by decide, ?_⟩
  exact (c8_unmatched_names_dropped tblOrder [] [tblOrders]
    (fun _ => [("orders", [])]) "ghost" [] (by decide)).2

theorem get_target_schema_eq_find? (target_tables : List TableSchema)
    (filename : String) :
    get_target_schema_by_filename target_tables filename =
      target_tables.find? (fun t => t.file_name == some filename) := by
  induction target_tables with
  | nil => rfl
  | cons a rest ih =>
    by_cases h : (a.file_name == some filename) = true
    · rw [List.find?_cons_of_pos rest h]
      simp only [get_target_schema_by_filename, h, if_true]
    · rw [List.find?_cons_of_neg rest h]
      simp [get_target_schema_by_filename, h, ih]

/-- C10: selecting a target schema by file name is a pure first-match
lookup: the result is the first catalog table whose file_name equals
the given filename, it is none exactly when no table matches —
including tables lacking the field, whose file_name is the missing
marker — and a returned table is a matching member of the catalog. -/
theorem c10_first_match_lookup (target_tables : List TableSchema)
    (filename : String) :
    get_target_schema_by_filename target_tables filename =
      target_tables.find? (fun t => t.file_name == some filename) ∧
    (get_target_schema_by_filename target_tables filename = none ↔
      ∀ t ∈ target_tables, t.file_name ≠ some filename) ∧
    (∀ t, get_target_schema_by_filename target_tables filename = some t →
      t ∈ target_tables ∧ t.file_name = some filename) := by
  refine ⟨get_target_schema_eq_find? target_tables filename, ?_, ?_⟩
  · rw [get_target_schema_eq_find?]
    rw [List.find?_eq_none]
    constructor
    · intro h t ht
      simpa using h t ht
    · intro h t ht
      simpa using h t ht
  · intro t ht
    rw [get_target_schema_eq_find?] at ht
    exact ⟨List.mem_of_find?_eq_some ht, by simpa using List.find?_some ht⟩

/-- Sample legacy-style table with no file_name field, for the C10
witness. -/
def tblLegacyNoFile : TableSchema :=
  ⟨"legacy_misc", [("x", [])], [], none⟩

/-- C10 witness: on a catalog whose first table lacks the file_name
field, looking up the Order file finds the Order table. -/
theorem c10_first_match_lookup_witness :
    (get_target_schema_by_filename [tblLegacyNoFile, tblCustomer, tblOrder]
        "Target.Order.sql" =
      [tblLegacyNoFile, tblCustomer, tblOrder].find?
        (fun t => t.file_name == some "Target.Order.sql")) ∧
    (get_target_schema_by_filename [tblLegacyNoFile, tblCustomer, tblOrder]
        "Target.Order.sql" = none ↔
      ∀ t ∈ [tblLegacyNoFile, tblCustomer, tblOrder],
        t.file_name ≠ some "Target.Order.sql") ∧
    (∀ t, get_target_schema_by_filename [tblLegacyNoFile, tblCustomer,
        tblOrder] "Target.Order.sql" = some t →
      t ∈ [tblLegacyNoFile, tblCustomer, tblOrder] ∧
      t.file_name = some "Target.Order.sql") :=
  c10_first_match_lookup [tblLegacyNoFile, tblCustomer, tblOrder]
    "Target.Order.sql"

/-- C3: search fails with InvalidQueryError exactly when fetch_k < k —
for every pair with fetch_k < k the error is raised, and for no pair
with fetch_k at least k is it raised. -/
theorem c3_fetch_k_invariant (lam : Rat) (simQ : IndexEntry → Rat)
    (simP : IndexEntry → IndexEntry → Rat) (entries : List IndexEntry)
    (k fetch_k : Nat) :
    search lam simQ simP entries k fetch_k = .error .invalidQuery ↔
      fetch_k < k := by
  by_cases h : fetch_k < k
  · simp [search, h]
  · simp [search, h]

/-- C9: for fetch_k at least k the search succeeds with at most k
entries, returning fewer than k only when the index holds fewer than k
entries; and the resolver keeps at most one legacy match per retrieved
entry, so with the fixed k = 10 retriever its legacy_matches has
length at most 10. -/
theorem c9_k_bound (lam : Rat) (simQ : IndexEntry → Rat)
    (simP : IndexEntry → IndexEntry → Rat) (entries : List IndexEntry)
    (k fetch_k : Nat) (h : k ≤ fetch_k) :
    (∃ l, search lam simQ simP entries k fetch_k = .ok l ∧
      l.length ≤ k ∧ (l.length < k → entries.length < k)) ∧
    ∀ (target_schema : TableSchema) (target_tables legacy_tables :
        List TableSchema)
      (retrieve : String → List (String × List String)),
      ((get_legacy_and_dependent_tables target_schema target_tables
          legacy_tables retrieve).1).length ≤
        (retrieve (encodeDoc target_schema)).length := by
  constructor
  · obtain ⟨hok, hlen⟩ := search_ok_length lam simQ simP entries k fetch_k h
    refine ⟨_, hok, ?_, ?_⟩
    · rw [hlen]
      omega
    · rw [hlen]
      omega
  · intro target_schema target_tables legacy_tables retrieve
    rw [resolver_fst]
    have h1 : (((retrieve (encodeDoc target_schema)).map Prod.fst).filterMap
          (legacyLookup legacy_tables)).length ≤
        ((retrieve (encodeDoc target_schema)).map Prod.fst).length :=
      List.length_filterMap_le _ _
    rw [List.length_map] at h1
    exact h1

/-- C9 witness: the resolver retriever parameters k = 10, fetch_k = 50
satisfy the precondition, instantiated on an empty index with constant
similarities. -/
theorem c9_k_bound_witness :
    10 ≤ 50 ∧
    ((∃ l, search (1 / 2) (fun _ => 0) (fun _ _ => 0) [] 10 50 = .ok l ∧
      l.length ≤ 10 ∧ (l.length < 10 → ([] : List IndexEntry).length < 10)) ∧
    ∀ (target_schema : TableSchema) (target_tables legacy_tables :
        List TableSchema)
      (retrieve : String → List (String × List String)),
      ((get_legacy_and_dependent_tables target_schema target_tables
          legacy_tables retrieve).1).length ≤
        (retrieve (encodeDoc target_schema)).length) :=
  ⟨by decide,
    c9_k_bound (1 / 2) (fun _ => 0) (fun _ _ => 0) [] 10 50 (by decide)⟩

/-- C4: when every provider batch call embeds its batch elementwise by
`f`, the adapter returns one embedding per input text in input order —
the result is exactly the elementwise map over the whole input, length
preserved — while consuming the input in internal batches of at most
100 texts, for inputs of any length including those spanning several
batches. -/
theorem c4_embed_order_preserving {ε α : Type} (f : String → α)
    (provide : List String → Except ε (List α)) (docs : List String)
    (h : ∀ b, provide b = .ok (b.map f)) :
    VertexAIEmbeddingFunction.call provide docs = .ok (docs.map f) ∧
    (docs.map f).length = docs.length ∧
    (∀ b ∈ VertexAIEmbeddingFunction.callBatches docs, b.length ≤ 100) ∧
    VertexAIEmbeddingFunction.call provide docs =
      VertexAIEmbeddingFunction.runBatches provide
        (VertexAIEmbeddingFunction.callBatches docs) := by
  have h1 := VertexAIEmbeddingFunction.call_eq_runBatches provide docs
  have h2 := VertexAIEmbeddingFunction.runBatches_map f provide h
    (VertexAIEmbeddingFunction.callBatches docs)
  have h3 := VertexAIEmbeddingFunction.callBatches_join docs
  refine ⟨?_, List.length_map _ _, ?_, h1⟩
  · rw [h1, h2, h3]
  · intro b hb
    exact VertexAIEmbeddingFunction.callBatches_size docs b hb

/-- C4 witness: an input of 150 texts, longer than one batch, with the
provider computing string lengths. -/
theorem c4_embed_order_preserving_witness :
    VertexAIEmbeddingFunction.call
        (fun b => (Except.ok (b.map String.length) : Except Unit (List Nat)))
        (List.replicate 150 "ab") =
      .ok ((List.replicate 150 "ab").map String.length) ∧
    ((List.replicate 150 "ab").map String.length).length =
      (List.replicate 150 "ab").length ∧
    (∀ b ∈ VertexAIEmbeddingFunction.callBatches (List.replicate 150 "ab"),
      b.length ≤ 100) ∧
    VertexAIEmbeddingFunction.call
        (fun b => (Except.ok (b.map String.length) : Except Unit (List Nat)))
        (List.replicate 150 "ab") =
      VertexAIEmbeddingFunction.runBatches
        (fun b => (Except.ok (b.map String.length) : Except Unit (List Nat)))
        (VertexAIEmbeddingFunction.callBatches (List.replicate 150 "ab")) :=
  c4_embed_order_preserving String.length _ (List.replicate 150 "ab")
    (fun _ => rfl)

/-- C5: if the provider fails on any internal batch, the whole adapter
call fails with an error and returns no result list at all — no prefix
of embeddings from previously succeeded batches reaches the caller. -/
theorem c5_batch_failure_fails_whole_call {ε α : Type}
    (provide : List String → Except ε (List α)) (docs : List String)
    (h : ∃ b ∈ VertexAIEmbeddingFunction.callBatches docs, ∃ e,
      provide b = .error e) :
    (∃ e, VertexAIEmbeddingFunction.call provide docs = .error e) ∧
    ∀ res, VertexAIEmbeddingFunction.call provide docs ≠ .ok res := by
  have h1 := VertexAIEmbeddingFunction.call_eq_runBatches provide docs
  obtain ⟨e, he⟩ := VertexAIEmbeddingFunction.runBatches_error provide
    (VertexAIEmbeddingFunction.callBatches docs) h
  refine ⟨⟨e, by rw [h1, he]⟩, ?_⟩
  intro res hres
  rw [h1, he] at hres
  exact absurd hres (by simp)

/-- C5 witness: a failing provider on the single batch of a two-text
input makes the whole call fail and no result list is returned. -/
theorem c5_batch_failure_fails_whole_call_witness :
    (∃ e, VertexAIEmbeddingFunction.call
        (fun _ => (Except.error "provider down" : Except String (List Nat)))
        ["a", "b"] = .error e) ∧
    ∀ res, VertexAIEmbeddingFunction.call
        (fun _ => (Except.error "provider down" : Except String (List Nat)))
        ["a", "b"] ≠ .ok res :=
  c5_batch_failure_fails_whole_call _ ["a", "b"]
    ⟨["a", "b"],
      by
        have h1 : List.drop VertexAIEmbeddingFunction.batch_size ["a", "b"] = [] := by
          decide
        have h2 : List.take VertexAIEmbeddingFunction.batch_size ["a", "b"] = ["a", "b"] := by
          decide
        rw [VertexAIEmbeddingFunction.callBatches_cons ["a", "b"] (by decide),
          h1, h2, VertexAIEmbeddingFunction.callBatches_nil]
        exact List.mem_singleton.mpr rfl,
      "provider down", rfl⟩
